import Mathlib

/-
Verification development for the physical-memory frame manager
(src/pintos_paging/src/vm/frame.c).

The embedding models the frame table state and the public operations of
frame.c.  Machine pointers are modelled as natural numbers (a kpage value
is the kernel virtual address of the frame, an upage value is the user
virtual address of the page, a thread is identified by a numeric id and
its page directory is identified by the same id).  The external
collaborators (physical page pool, swap device, supplemental page table,
per-process page tables) are modelled as components of the state, and the
collaborator calls made by vm_frame_allocate are additionally recorded in
an event trace so that the order of the eviction sequence can be stated.

Fatal paths (PANIC / failed ASSERT / undefined behaviour on a stale
cursor) are modelled as the result none of an Option; the benign
failure return of vm_frame_allocate (NULL) is the inner value none.

The pintos library code (lib/kernel/list, lib/kernel/hash,
threads/vaddr.h) is not among the given sources; where its behaviour
decides a claim, the corresponding definition is modelled from the spec
and marked as such in its doc comment.
-/

namespace FrameTable

/-- One frame table entry of frame.c (struct frame_table_entry).  The
pinned flag is kept outside the record, keyed by kpage, because it is the
only mutable field and the same entry is shared between the registry and
the eviction order in the C code. -/
structure FTE where
  kpage : Nat
  upage : Nat
  owner : Nat
deriving DecidableEq, Repr

/-- Collaborator operations performed by vm_frame_allocate, recorded in
order as an event trace. -/
inductive Event where
  | pallocGet (res : Option Nat)
  | clearPage (pd : Nat) (up : Nat)
  | swapOut (kp : Nat) (idx : Nat)
  | setSwap (owner : Nat) (up : Nat) (idx : Nat)
  | removeFTE (kp : Nat)
  | pallocFree (kp : Nat)
deriving DecidableEq, Repr

/-- The global state of the frame manager together with its modelled
collaborators.  frameMap is the contents of the hash map frame_map,
frameList is the circular list frame_list in insertion order, clockPtr
is the clock cursor (none models the reset state clock_ptr == NULL,
some k models a pointer to the list element of the entry whose kpage is
k).  accessed pd u is the hardware accessed bit of user page u in page
directory pd; pool is the free list of the physical page allocator
(palloc), head first; supt is the supplemental page table collaborator;
heapOK tells whether kernel-heap malloc succeeds. -/
structure FrameState where
  frameMap : List FTE
  frameList : List FTE
  clockPtr : Option Nat
  pinned : Nat → Bool
  accessed : Nat → Nat → Bool
  pool : List Nat
  swapCtr : Nat
  supt : Nat → Nat → Option Nat
  heapOK : Bool

/-- Modelled from the spec and the standard pintos memory layout
(threads/vaddr.h is not among the given sources): kernel virtual
addresses are the addresses at or above PHYS_BASE. -/
def PHYS_BASE : Nat := 0xc0000000

/-- Page size, 4 KiB. -/
def PGSIZE : Nat := 4096

/-- Modelled from the spec: is_kernel_vaddr of threads/vaddr.h, true for
addresses in the kernel half of the address space. -/
def is_kernel_vaddr (v : Nat) : Bool := decide (PHYS_BASE ≤ v)

/-- Modelled from the spec: pg_ofs of threads/vaddr.h, the offset of an
address within its page. -/
def pg_ofs (v : Nat) : Nat := v % PGSIZE

/-- The list of kpage keys of a list of entries. -/
def keysOf (l : List FTE) : List Nat := l.map FTE.kpage

/-- hash_find on frame_map: lookup of the entry whose key (kpage)
matches. -/
def hash_find (m : List FTE) (k : Nat) : Option FTE :=
  m.find? (fun e => e.kpage == k)

/-- hash_insert on frame_map: pintos hash_insert inserts a new element
only when no element with an equal key is present (the caller in frame.c
ignores the returned old element). -/
def hash_insert (m : List FTE) (e : FTE) : List FTE :=
  match hash_find m e.kpage with
  | some _ => m
  | none => e :: m

/-- Removal by key from a list of entries (hash_delete on the registry,
list_remove of the same entry on the eviction order): removes the first
entry whose kpage matches. -/
def eraseKey : List FTE → Nat → List FTE
  | [], _ => []
  | e :: l, k => if e.kpage = k then l else e :: eraseKey l k

/-- The index of the entry with key k in a list, if present. -/
def keyIdx : List FTE → Nat → Option Nat
  | [], _ => none
  | e :: l, k => if e.kpage = k then some 0 else (keyIdx l k).map (· + 1)

/-- The cursor is valid: it is in the reset state or points at an entry
that is currently in the eviction order. -/
def cursorOKb (s : FrameState) : Bool :=
  match s.clockPtr with
  | none => true
  | some k => (keyIdx s.frameList k).isSome

/-- The index in the eviction order that the next call of
clock_next_frame will inspect: the first entry when the cursor is reset,
otherwise one past the cursor position, wrapping to the start.  The
wrap is modelled from the spec (the circular sequence semantics of
lib/kernel/list are not among the given sources). -/
def nextIdx (s : FrameState) : Nat :=
  match s.clockPtr with
  | none => 0
  | some k =>
    match keyIdx s.frameList k with
    | none => 0
    | some i => if i + 1 = s.frameList.length then 0 else i + 1

/-- Distance (number of further clock steps after the next one) from the
position i that the clock is about to inspect to position j, in a
circular order of length n.  Used only to measure progress of the scan
in the termination proofs. -/
def cdist (i j n : Nat) : Nat := if i ≤ j then j - i else j + n - i

/-- Distance from the position the clock of s is about to inspect to
position j of the eviction order. -/
def distTo (s : FrameState) (j : Nat) : Nat :=
  cdist (nextIdx s) j s.frameList.length

/-- clock_next_frame of frame.c: advance the cursor one step along the
circular eviction order (nextIdx encodes the two branches of the source:
reset cursor goes to the first entry, otherwise one step forward with
wraparound) and return the entry at the new position, leaving the cursor
on it.  Returns none on the fatal paths: the PANIC when the list is
empty, and the undefined behaviour of following a stale cursor (a
pointer to an entry no longer in the list).  The wrap of the cursor past
the last entry to the first is modelled from the spec (lib/kernel/list
is not among the given sources). -/
def clock_next_frame (s : FrameState) : Option (FTE × FrameState) :=
  if s.frameList.isEmpty then none
  else if cursorOKb s then
    match s.frameList.get? (nextIdx s) with
    | none => none
    | some e => some (e, { s with clockPtr := some e.kpage })
  else none

/-- Clearing the hardware accessed bit of user page up in page
directory pd (pagedir_set_accessed(pd, up, false)). -/
def clearAccessed (pd up : Nat) (s : FrameState) : FrameState :=
  { s with accessed := fun p u => if p = pd ∧ u = up then false else s.accessed p u }

/-- Result of the eviction scan clock_pick_evict_frame: a victim entry
together with the state after the scan, the PANIC on scan-bound
exhaustion (out of memory), the PANIC on an empty frame table, or
undefined behaviour (stale cursor / inconsistent structures). -/
inductive PickResult where
  | victim (e : FTE) (s : FrameState)
  | oom
  | emptyPanic
  | undef

/-- The victim of a scan result, if one was returned. -/
def victimOf : PickResult → Option FTE
  | .victim e _ => some e
  | _ => none

/-- The state after a scan that returned a victim. -/
def stateOf : PickResult → Option FrameState
  | .victim _ s => some s
  | _ => none

/-- The body of the bounded scan loop of clock_pick_evict_frame: each
iteration advances the clock one entry; a pinned entry is skipped; an
entry whose accessed bit (queried in the page directory pd that was
passed to the function) is set has that bit cleared and is skipped;
otherwise the entry is the victim.  fuel is the number of remaining
loop iterations. -/
def clockPickLoop (pd : Nat) : Nat → FrameState → PickResult
  | 0, _ => .oom
  | fuel + 1, s =>
    match clock_next_frame s with
    | none => .undef
    | some (e, s1) =>
      if s1.pinned e.kpage then clockPickLoop pd fuel s1
      else if s1.accessed pd e.upage then
        clockPickLoop pd fuel (clearAccessed pd e.upage s1)
      else .victim e s1

/-- clock_pick_evict_frame of frame.c: PANIC when the frame table is
empty, otherwise run the scan loop for at most 2n + 1 iterations
(for it = 0; it <= n + n; ++it), n the size of the registry hash. -/
def clock_pick_evict_frame (pd : Nat) (s : FrameState) : PickResult :=
  let n := s.frameMap.length
  if n = 0 then .emptyPanic
  else clockPickLoop pd (2 * n + 1) s

/-- Variant of the scan written from the words of the spec, for
comparison with the source function: the accessed bit that is queried
and cleared lives in the page table of the process owning the inspected
entry, not in a single page directory passed by the caller. -/
def clockPickLoopOwner : Nat → FrameState → PickResult
  | 0, _ => .oom
  | fuel + 1, s =>
    match clock_next_frame s with
    | none => .undef
    | some (e, s1) =>
      if s1.pinned e.kpage then clockPickLoopOwner fuel s1
      else if s1.accessed e.owner e.upage then
        clockPickLoopOwner fuel (clearAccessed e.owner e.upage s1)
      else .victim e s1

/-- Variant of clock_pick_evict_frame written from the words of the
spec (owner page-table accessed bits); used only to compare against the
source function. -/
def clock_pick_evict_frame_ownerq (s : FrameState) : PickResult :=
  let n := s.frameMap.length
  if n = 0 then .emptyPanic
  else clockPickLoopOwner (2 * n + 1) s

/-- vm_frame_do_free of frame.c: assert that kpage is a page-aligned
kernel virtual address (none on assertion failure), look the entry up in
the registry (absent means already freed: silent no-op), otherwise
remove it from the registry hash and the eviction order list and, when
free_page is set, return the physical frame to the pool.  The cursor is
not touched. -/
def vm_frame_do_free (k : Nat) (free_page : Bool) (s : FrameState) : Option FrameState :=
  if is_kernel_vaddr k && (pg_ofs k == 0) then
    match hash_find s.frameMap k with
    | none => some s
    | some _ =>
      let s1 := { s with frameMap := eraseKey s.frameMap k,
                         frameList := eraseKey s.frameList k }
      some (if free_page then { s1 with pool := k :: s1.pool } else s1)
  else none

/-- vm_frame_free of frame.c: remove the entry and return the frame to
the pool. -/
def vm_frame_free (k : Nat) (s : FrameState) : Option FrameState :=
  vm_frame_do_free k true s

/-- vm_frame_remove_entry of frame.c: remove the entry only, without
returning the frame to the pool. -/
def vm_frame_remove_entry (k : Nat) (s : FrameState) : Option FrameState :=
  vm_frame_do_free k false s

/-- vm_frame_set_pinned of frame.c: PANIC (none) when the frame is not
in the registry, otherwise set the pinned flag. -/
def vm_frame_set_pinned (k : Nat) (v : Bool) (s : FrameState) : Option FrameState :=
  match hash_find s.frameMap k with
  | none => none
  | some _ => some { s with pinned := fun x => if x = k then v else s.pinned x }

/-- vm_frame_pin of frame.c. -/
def vm_frame_pin (k : Nat) (s : FrameState) : Option FrameState :=
  vm_frame_set_pinned k true s

/-- vm_frame_unpin of frame.c. -/
def vm_frame_unpin (k : Nat) (s : FrameState) : Option FrameState :=
  vm_frame_set_pinned k false s

/-- The tail of vm_frame_allocate after a physical frame fp has been
acquired: malloc the entry record (heapOK tells whether the kernel heap
has room); on malloc failure release the lock and return NULL to the
caller without touching anything else; on success fill the record for
the calling thread tid and page up, insert it into the registry hash
and push it at the back of the eviction order. -/
def finishAllocate (tid up fp : Nat) (s : FrameState) (tr : List Event) :
    Option Nat × FrameState × List Event :=
  if s.heapOK then
    let e : FTE := ⟨fp, up, tid⟩
    (some fp,
      { s with frameMap := hash_insert s.frameMap e,
               frameList := s.frameList ++ [e],
               pinned := fun x => if x = fp then false else s.pinned x },
      tr)
  else (none, s, tr)

/-- The two swap collaborator calls of the eviction path of
vm_frame_allocate: vm_swap_out hands out the next backing-store slot
(modelled as a counter) for the victim frame contents, and
vm_supt_set_swap records that slot for the victim owner and its
owner_page in the owner supplemental page table. -/
def recordSwap (ev : FTE) (idx : Nat) (s : FrameState) : FrameState :=
  { s with
    swapCtr := s.swapCtr + 1
    supt := fun t u => if t = ev.owner ∧ u = ev.upage then some idx else s.supt t u }

/-- The eviction sequence of vm_frame_allocate when palloc fails: pick
a victim with the clock scan (page directory of the invoking thread
tid), clear the victim page mapping (page-table collaborator; recorded
in the trace by the caller), swap the victim out and record the slot
(recordSwap, slot s1.swapCtr), then free the victim entry returning its
frame to the pool (vm_frame_do_free with free_page).  Returns the
victim, the swap slot and the resulting state; none is any fatal path
(scan PANIC or failed ASSERT). -/
def evictOne (tid : Nat) (s : FrameState) : Option (FTE × Nat × FrameState) :=
  match clock_pick_evict_frame tid s with
  | PickResult.victim ev s1 =>
    match vm_frame_do_free ev.kpage true (recordSwap ev s1.swapCtr s1) with
    | none => none
    | some s3 => some (ev, s1.swapCtr, s3)
  | _ => none

/-- vm_frame_allocate of frame.c, called by thread tid for user page up.
Try palloc_get_page (pop the pool head); if the pool is exhausted, run
the eviction sequence (evictOne) and retry palloc_get_page, which must
now succeed (failed ASSERT modelled as none), then hand the acquired
frame to finishAllocate.  The outer none is any fatal path; the inner
Option Nat is the value returned to the caller (none = NULL).  The
trace lists the collaborator calls in order. -/
def vm_frame_allocate (tid up : Nat) (s : FrameState) :
    Option (Option Nat × FrameState × List Event) :=
  match s.pool with
  | fp :: rest =>
    some (finishAllocate tid up fp { s with pool := rest }
      [Event.pallocGet (some fp)])
  | [] =>
    match evictOne tid s with
    | none => none
    | some (ev, idx, s3) =>
      match s3.pool with
      | [] => none
      | fp :: rest =>
        some (finishAllocate tid up fp { s3 with pool := rest }
          [Event.pallocGet none,
           Event.clearPage ev.owner ev.upage,
           Event.swapOut ev.kpage idx,
           Event.setSwap ev.owner ev.upage idx,
           Event.removeFTE ev.kpage,
           Event.pallocFree ev.kpage,
           Event.pallocGet (some fp)])

/-- vm_frame_init of frame.c: empty registry and eviction order, reset
cursor.  The collaborator components of the ambient state are not owned
by the frame manager and are left as given. -/
def vm_frame_init (s : FrameState) : FrameState :=
  { s with frameMap := [], frameList := [], clockPtr := none }

/-- The public mutating operations exposed by frame.c. -/
inductive Op where
  | allocate (tid up : Nat)
  | free (k : Nat)
  | removeEntry (k : Nat)
  | pin (k : Nat)
  | unpin (k : Nat)

/-- Apply one public operation; none is any fatal path. -/
def applyOp : Op → FrameState → Option FrameState
  | .allocate tid up, s => (vm_frame_allocate tid up s).map (fun r => r.2.1)
  | .free k, s => vm_frame_free k s
  | .removeEntry k, s => vm_frame_remove_entry k s
  | .pin k, s => vm_frame_pin k s
  | .unpin k, s => vm_frame_unpin k s

/-- Registry and eviction order hold the same set of entries. -/
def entriesConsistent (s : FrameState) : Prop :=
  (∀ e ∈ s.frameMap, e ∈ s.frameList) ∧ (∀ e ∈ s.frameList, e ∈ s.frameMap)

/-- Structural well-formedness of a frame table state: keys are unique
in both structures, the two structures hold the same entries, the free
pool has no duplicates and is disjoint from the registry. -/
def WF (s : FrameState) : Prop :=
  (keysOf s.frameMap).Nodup ∧ (keysOf s.frameList).Nodup ∧ entriesConsistent s ∧
    s.pool.Nodup ∧ (∀ k ∈ s.pool, k ∉ keysOf s.frameMap)

instance (s : FrameState) : Decidable (entriesConsistent s) := by
  unfold entriesConsistent
  infer_instance

instance (s : FrameState) : Decidable (WF s) := by
  unfold WF
  infer_instance

/- Concrete states used to evaluate the model on explicit inputs. -/

/-- A frame table entry at kernel address 0xc0001000 owned by thread 1. -/
def exEntry : FTE := ⟨0xc0001000, 0x1000, 1⟩

/-- A second entry at kernel address 0xc0002000 owned by thread 1. -/
def exEntry2 : FTE := ⟨0xc0002000, 0x2000, 1⟩

/-- An entry owned by thread 1 whose page is accessed in the owner page
directory. -/
def exEntry3 : FTE := ⟨0xc0003000, 0x2000, 1⟩

/-- The empty frame manager state with benign collaborators. -/
def exBase : FrameState :=
  { frameMap := [], frameList := [], clockPtr := none,
    pinned := fun _ => false, accessed := fun _ _ => false,
    pool := [], swapCtr := 0, supt := fun _ _ => none, heapOK := true }

/-- One live, unpinned, unaccessed entry; empty pool. -/
def exOne : FrameState :=
  { exBase with frameMap := [exEntry], frameList := [exEntry] }

/-- One live entry, pinned; empty pool. -/
def exOnePinned : FrameState :=
  { exOne with pinned := fun _ => true }

/-- Two live entries with the cursor parked on the first. -/
def exTwo : FrameState :=
  { exBase with
    frameMap := [exEntry, exEntry2]
    frameList := [exEntry, exEntry2]
    clockPtr := some 0xc0001000 }

/-- One live entry whose accessed bit is set in the page directory of
its owner (thread 1) and clear in every other page directory. -/
def exOwnerAcc : FrameState :=
  { exBase with
    frameMap := [exEntry3]
    frameList := [exEntry3]
    accessed := fun p u => p == 1 && u == 0x2000 }

/-- A state with one free frame in the pool and an exhausted kernel
heap (malloc will fail). -/
def exHeapFail : FrameState :=
  { exBase with pool := [0xc0005000], heapOK := false }

/- Basic lemmas about keys, lookup, removal and the clock step. -/

@[simp]
theorem keysOf_nil : keysOf [] = [] := rfl

@[simp]
theorem keysOf_cons (e : FTE) (l : List FTE) : keysOf (e :: l) = e.kpage :: keysOf l := rfl

theorem keysOf_append (l1 l2 : List FTE) : keysOf (l1 ++ l2) = keysOf l1 ++ keysOf l2 :=
  List.map_append _ _ _

theorem mem_keysOf {l : List FTE} {k : Nat} : k ∈ keysOf l ↔ ∃ e ∈ l, e.kpage = k := by
  simp [keysOf, List.mem_map]

theorem keyIdx_lt {l : List FTE} {k i : Nat} (h : keyIdx l k = some i) : i < l.length := by
  induction l generalizing i with
  | nil => simp [keyIdx] at h
  | cons e t ih =>
    by_cases he : e.kpage = k
    · simp [keyIdx, he] at h
      simp [← h]
    · simp [keyIdx, he] at h
      obtain ⟨j, hj, rfl⟩ := h
      have := ih hj
      simp only [List.length_cons]
      omega

theorem keyIdx_get? {l : List FTE} {k i : Nat} (h : keyIdx l k = some i) :
    ∃ e, l.get? i = some e ∧ e.kpage = k := by
  induction l generalizing i with
  | nil => simp [keyIdx] at h
  | cons e t ih =>
    by_cases he : e.kpage = k
    · simp [keyIdx, he] at h
      exact ⟨e, by simp [← h], he⟩
    · simp [keyIdx, he] at h
      obtain ⟨j, hj, rfl⟩ := h
      obtain ⟨x, hx1, hx2⟩ := ih hj
      exact ⟨x, by simpa using hx1, hx2⟩

theorem keyIdx_isSome_iff {l : List FTE} {k : Nat} :
    (keyIdx l k).isSome = true ↔ k ∈ keysOf l := by
  induction l with
  | nil => simp [keyIdx]
  | cons e t ih =>
    by_cases he : e.kpage = k
    · simp [keyIdx, he]
    · have hmap : (Option.map (· + 1) (keyIdx t k)).isSome = (keyIdx t k).isSome := by
        cases keyIdx t k <;> rfl
      simp only [keyIdx, if_neg he, hmap, ih, keysOf_cons, List.mem_cons]
      constructor
      · exact Or.inr
      · rintro (rfl | hk)
        · exact absurd rfl he
        · exact hk

theorem keyIdx_of_get? {l : List FTE} (hnd : (keysOf l).Nodup) {i : Nat} {e : FTE}
    (h : l.get? i = some e) : keyIdx l e.kpage = some i := by
  induction l generalizing i with
  | nil => simp at h
  | cons x t ih =>
    rw [keysOf_cons, List.nodup_cons] at hnd
    cases i with
    | zero =>
      simp only [List.get?] at h
      injection h with h
      subst h
      simp [keyIdx]
    | succ j =>
      simp only [List.get?] at h
      have hmem : e ∈ t := List.get?_mem h
      have hne : x.kpage ≠ e.kpage := by
        intro hh
        exact hnd.1 (hh ▸ mem_keysOf.mpr ⟨e, hmem, rfl⟩)
      simp [keyIdx, hne, ih hnd.2 h]

theorem hash_find_eq_none {m : List FTE} {k : Nat} :
    hash_find m k = none ↔ k ∉ keysOf m := by
  simp [hash_find, List.find?_eq_none, mem_keysOf]

theorem hash_find_some {m : List FTE} {k : Nat} {e : FTE} (h : hash_find m k = some e) :
    e ∈ m ∧ e.kpage = k := by
  refine ⟨List.mem_of_find?_eq_some h, ?_⟩
  have := List.find?_some h
  simpa using this

theorem hash_find_of_mem {m : List FTE} {k : Nat} (h : k ∈ keysOf m) :
    ∃ e, hash_find m k = some e := by
  cases hf : hash_find m k with
  | some e => exact ⟨e, rfl⟩
  | none => exact absurd h (hash_find_eq_none.mp hf)

theorem eraseKey_sublist : ∀ (l : List FTE) (k : Nat), (eraseKey l k).Sublist l
  | [], _ => List.Sublist.refl _
  | e :: l, k => by
    rw [eraseKey]
    split
    · exact (List.Sublist.refl l).cons e
    · exact (eraseKey_sublist l k).cons₂ e

theorem nodup_keysOf_eraseKey {l : List FTE} {k : Nat} (hnd : (keysOf l).Nodup) :
    (keysOf (eraseKey l k)).Nodup :=
  List.Nodup.sublist ((eraseKey_sublist l k).map FTE.kpage) hnd

theorem mem_eraseKey {l : List FTE} {k : Nat} (hnd : (keysOf l).Nodup) {e : FTE} :
    e ∈ eraseKey l k ↔ e ∈ l ∧ e.kpage ≠ k := by
  induction l with
  | nil => simp [eraseKey]
  | cons x t ih =>
    rw [keysOf_cons, List.nodup_cons] at hnd
    by_cases hx : x.kpage = k
    · rw [eraseKey, if_pos hx]
      constructor
      · intro he
        refine ⟨List.mem_cons_of_mem _ he, ?_⟩
        intro hek
        exact hnd.1 (hx ▸ hek ▸ mem_keysOf.mpr ⟨e, he, rfl⟩)
      · rintro ⟨he, hek⟩
        rcases List.mem_cons.mp he with rfl | he2
        · exact absurd hx hek
        · exact he2
    · rw [eraseKey, if_neg hx, List.mem_cons, ih hnd.2, List.mem_cons]
      constructor
      · rintro (rfl | ⟨he, hek⟩)
        · exact ⟨Or.inl rfl, hx⟩
        · exact ⟨Or.inr he, hek⟩
      · rintro ⟨rfl | he, hek⟩
        · exact Or.inl rfl
        · exact Or.inr ⟨he, hek⟩

theorem not_mem_keysOf_eraseKey {l : List FTE} {k : Nat} (hnd : (keysOf l).Nodup) :
    k ∉ keysOf (eraseKey l k) := by
  intro hk
  obtain ⟨e, he, hek⟩ := mem_keysOf.mp hk
  exact ((mem_eraseKey hnd).mp he).2 hek

theorem nextIdx_lt {s : FrameState} (hne : s.frameList ≠ []) :
    nextIdx s < s.frameList.length := by
  have hlen : 0 < s.frameList.length := List.length_pos.mpr hne
  rcases hc : s.clockPtr with _ | k
  · simpa [nextIdx, hc] using hlen
  · rcases hk : keyIdx s.frameList k with _ | i
    · simpa [nextIdx, hc, hk] using hlen
    · have hi := keyIdx_lt hk
      simp only [nextIdx, hc, hk]
      split
      · exact hlen
      · omega

theorem clock_next_some {s : FrameState} (hne : s.frameList ≠ []) (hcur : cursorOKb s = true) :
    ∃ e, s.frameList.get? (nextIdx s) = some e ∧
      clock_next_frame s = some (e, { s with clockPtr := some e.kpage }) := by
  have hlt := nextIdx_lt hne
  refine ⟨s.frameList.get ⟨nextIdx s, hlt⟩, List.get?_eq_get hlt, ?_⟩
  rw [clock_next_frame, if_neg (by simp [List.isEmpty_iff, hne]), if_pos hcur,
    List.get?_eq_get hlt]

theorem clock_next_shape {s : FrameState} {e : FTE} {s1 : FrameState}
    (h : clock_next_frame s = some (e, s1)) :
    s1 = { s with clockPtr := some e.kpage } ∧ s.frameList.get? (nextIdx s) = some e := by
  rw [clock_next_frame] at h
  split at h
  · exact absurd h (by simp)
  · split at h
    · cases hg : s.frameList.get? (nextIdx s) with
      | none => rw [hg] at h; exact absurd h (by simp)
      | some e1 =>
        rw [hg] at h
        injection h with h
        injection h with h1 h2
        refine ⟨?_, ?_⟩
        · rw [← h2, h1]
        · rw [← h1]
    · exact absurd h (by simp)

/- Projection lemmas for the state updates used by the scan. -/

@[simp]
theorem clearAccessed_frameMap (pd up : Nat) (s : FrameState) :
    (clearAccessed pd up s).frameMap = s.frameMap := rfl

@[simp]
theorem clearAccessed_frameList (pd up : Nat) (s : FrameState) :
    (clearAccessed pd up s).frameList = s.frameList := rfl

@[simp]
theorem clearAccessed_clockPtr (pd up : Nat) (s : FrameState) :
    (clearAccessed pd up s).clockPtr = s.clockPtr := rfl

@[simp]
theorem clearAccessed_pinned (pd up : Nat) (s : FrameState) :
    (clearAccessed pd up s).pinned = s.pinned := rfl

@[simp]
theorem clearAccessed_pool (pd up : Nat) (s : FrameState) :
    (clearAccessed pd up s).pool = s.pool := rfl

@[simp]
theorem clearAccessed_swapCtr (pd up : Nat) (s : FrameState) :
    (clearAccessed pd up s).swapCtr = s.swapCtr := rfl

@[simp]
theorem clearAccessed_supt (pd up : Nat) (s : FrameState) :
    (clearAccessed pd up s).supt = s.supt := rfl

@[simp]
theorem clearAccessed_heapOK (pd up : Nat) (s : FrameState) :
    (clearAccessed pd up s).heapOK = s.heapOK := rfl

theorem clearAccessed_accessed_true {pd up p u : Nat} {s : FrameState}
    (h : (clearAccessed pd up s).accessed p u = true) : s.accessed p u = true := by
  simp only [clearAccessed] at h
  split at h
  · exact absurd h (by simp)
  · exact h

/- Arithmetic lemmas about the circular distance. -/

theorem cdist_lt {i j n : Nat} (hi : i < n) (hj : j < n) : cdist i j n < n := by
  unfold cdist
  split <;> omega

theorem cdist_step {i j n : Nat} (hi : i < n) (hj : j < n) (hne : i ≠ j) :
    cdist (if i + 1 = n then 0 else i + 1) j n + 1 = cdist i j n := by
  unfold cdist
  split_ifs <;> omega

theorem cdist_self {j n : Nat} : cdist j j n = 0 := by
  unfold cdist
  simp

theorem cdist_after_self {j n : Nat} (hj : j < n) :
    cdist (if j + 1 = n then 0 else j + 1) j n = n - 1 := by
  unfold cdist
  split_ifs <;> omega

theorem nextIdx_after {s : FrameState} (hnd : (keysOf s.frameList).Nodup) {e : FTE}
    (h : s.frameList.get? (nextIdx s) = some e) (s2 : FrameState)
    (hf : s2.frameList = s.frameList) (hc : s2.clockPtr = some e.kpage) :
    nextIdx s2 = if nextIdx s + 1 = s.frameList.length then 0 else nextIdx s + 1 := by
  simp only [nextIdx, hc, hf, keyIdx_of_get? hnd h]

theorem cursorOKb_set {s : FrameState} {e : FTE} (hmem : e ∈ s.frameList)
    (s2 : FrameState) (hf : s2.frameList = s.frameList) (hc : s2.clockPtr = some e.kpage) :
    cursorOKb s2 = true := by
  simp only [cursorOKb, hc, hf, keyIdx_isSome_iff]
  exact mem_keysOf.mpr ⟨e, hmem, rfl⟩

/- Invariants of the scan loop. -/

theorem clockPickLoop_victim_inv {pd : Nat} :
    ∀ {fuel : Nat} {s : FrameState} {e : FTE} {s2 : FrameState},
      clockPickLoop pd fuel s = PickResult.victim e s2 →
      s2.frameMap = s.frameMap ∧ s2.frameList = s.frameList ∧ s2.pool = s.pool ∧
        s2.pinned = s.pinned ∧ s2.swapCtr = s.swapCtr ∧ s2.supt = s.supt ∧
        s2.heapOK = s.heapOK ∧ s.pinned e.kpage = false := by
  intro fuel
  induction fuel with
  | zero =>
    intro s e s2 h
    simp [clockPickLoop] at h
  | succ f ih =>
    intro s e s2 h
    simp only [clockPickLoop] at h
    cases hn : clock_next_frame s with
    | none =>
      rw [hn] at h
      exact absurd h (by simp)
    | some p =>
      obtain ⟨e1, s1⟩ := p
      obtain ⟨hs1, hget⟩ := clock_next_shape hn
      rw [hn] at h
      dsimp only at h
      subst hs1
      by_cases hp : s.pinned e1.kpage = true
      · rw [if_pos hp] at h
        simpa using ih h
      · rw [if_neg hp] at h
        by_cases ha : s.accessed pd e1.upage = true
        · rw [if_pos ha] at h
          simpa [clearAccessed] using ih h
        · rw [if_neg ha] at h
          injection h with h1 h2
          subst h1
          subst h2
          simp [Bool.not_eq_true] at hp
          exact ⟨rfl, rfl, rfl, rfl, rfl, rfl, rfl, hp⟩

theorem clockPickLoop_all_pinned {pd : Nat} :
    ∀ {fuel : Nat} {s : FrameState},
      s.frameList ≠ [] → cursorOKb s = true →
      (∀ e ∈ s.frameList, s.pinned e.kpage = true) →
      clockPickLoop pd fuel s = PickResult.oom := by
  intro fuel
  induction fuel with
  | zero =>
    intro s _ _ _
    rfl
  | succ f ih =>
    intro s hne hcur hall
    obtain ⟨e, hget, heq⟩ := clock_next_some hne hcur
    have hmem : e ∈ s.frameList := List.get?_mem hget
    simp only [clockPickLoop]
    rw [heq]
    dsimp only
    rw [if_pos (hall e hmem)]
    exact ih hne (cursorOKb_set hmem _ rfl rfl) hall

theorem clockPickLoop_finds {pd : Nat} :
    ∀ {fuel : Nat} {s : FrameState} {j : Nat} {u : FTE},
      s.frameList.get? j = some u →
      (keysOf s.frameList).Nodup → cursorOKb s = true →
      s.pinned u.kpage = false →
      distTo s j + 1 +
          (if s.accessed pd u.upage = true then s.frameList.length else 0) ≤ fuel →
      ∃ e s2, clockPickLoop pd fuel s = PickResult.victim e s2 := by
  intro fuel
  induction fuel with
  | zero =>
    intro s j u _ _ _ _ hb
    split_ifs at hb <;> omega
  | succ f ih =>
    intro s j u hu hnd hcur hup hb
    have hne : s.frameList ≠ [] := by
      intro hh
      rw [hh] at hu
      simp at hu
    have hjlt : j < s.frameList.length := by
      by_contra hge
      rw [List.get?_eq_none.mpr (by omega)] at hu
      exact Option.noConfusion hu
    have hilt : nextIdx s < s.frameList.length := nextIdx_lt hne
    obtain ⟨e, hget, heq⟩ := clock_next_some hne hcur
    have hmem : e ∈ s.frameList := List.get?_mem hget
    simp only [clockPickLoop]
    rw [heq]
    dsimp only
    have hcur1 : cursorOKb { s with clockPtr := some e.kpage } = true :=
      cursorOKb_set hmem _ rfl rfl
    have hnix : nextIdx { s with clockPtr := some e.kpage } =
        if nextIdx s + 1 = s.frameList.length then 0 else nextIdx s + 1 :=
      nextIdx_after hnd hget _ rfl rfl
    by_cases hp : s.pinned e.kpage = true
    · rw [if_pos hp]
      have hij : nextIdx s ≠ j := by
        intro hh
        rw [hh, hu] at hget
        injection hget with hg
        rw [← hg, hup] at hp
        exact Bool.noConfusion hp
      apply ih (s := { s with clockPtr := some e.kpage }) hu hnd hcur1 hup
      have hstep := cdist_step hilt hjlt hij
      have hlist1 : ({ s with clockPtr := some e.kpage } : FrameState).frameList =
          s.frameList := rfl
      have hacc1 : ({ s with clockPtr := some e.kpage } : FrameState).accessed =
          s.accessed := rfl
      unfold distTo at hb ⊢
      rw [← hstep] at hb
      rw [hnix, hlist1, hacc1]
      split_ifs at hb ⊢ <;> omega
    · rw [if_neg hp]
      by_cases ha : s.accessed pd e.upage = true
      · rw [if_pos ha]
        have hnix2 : nextIdx (clearAccessed pd e.upage { s with clockPtr := some e.kpage }) =
            if nextIdx s + 1 = s.frameList.length then 0 else nextIdx s + 1 :=
          nextIdx_after hnd hget _ rfl rfl
        have hclrlist : (clearAccessed pd e.upage
            { s with clockPtr := some e.kpage }).frameList = s.frameList := rfl
        apply ih (s := clearAccessed pd e.upage { s with clockPtr := some e.kpage })
          hu hnd hcur1 hup
        unfold distTo at hb ⊢
        rw [hnix2, hclrlist]
        by_cases hij : nextIdx s = j
        · have heu : e = u := by
            rw [hij, hu] at hget
            injection hget with hg
            exact hg.symm
          have hclr : (clearAccessed pd e.upage
              { s with clockPtr := some e.kpage }).accessed pd u.upage = false := by
            show (if pd = pd ∧ u.upage = e.upage then false else s.accessed pd u.upage) = false
            rw [if_pos ⟨rfl, by rw [heu]⟩]
          rw [hclr]
          rw [hij] at hb ⊢
          rw [cdist_self] at hb
          rw [cdist_after_self hjlt]
          rw [if_pos (heu ▸ ha)] at hb
          simp only [Bool.false_eq_true, if_false]
          omega
        · have hstep := cdist_step hilt hjlt hij
          rw [← hstep] at hb
          by_cases hA2 : (clearAccessed pd e.upage
              { s with clockPtr := some e.kpage }).accessed pd u.upage = true
          · have hA : s.accessed pd u.upage = true := clearAccessed_accessed_true hA2
            rw [if_pos hA2]
            rw [if_pos hA] at hb
            omega
          · rw [if_neg hA2]
            split_ifs at hb ⊢ <;> omega
      · rw [if_neg ha]
        exact ⟨e, _, rfl⟩

theorem clock_pick_victim_inv {pd : Nat} {s : FrameState} {e : FTE} {s2 : FrameState}
    (h : clock_pick_evict_frame pd s = PickResult.victim e s2) :
    s2.frameMap = s.frameMap ∧ s2.frameList = s.frameList ∧ s2.pool = s.pool ∧
      s2.pinned = s.pinned ∧ s2.swapCtr = s.swapCtr ∧ s2.supt = s.supt ∧
      s2.heapOK = s.heapOK ∧ s.pinned e.kpage = false := by
  simp only [clock_pick_evict_frame] at h
  split at h
  · exact PickResult.noConfusion h
  · exact clockPickLoop_victim_inv h

theorem clockPickLoop_accessed_other {pd : Nat} :
    ∀ {fuel : Nat} {s : FrameState} {e : FTE} {s2 : FrameState},
      clockPickLoop pd fuel s = PickResult.victim e s2 →
      ∀ p u, p ≠ pd → s2.accessed p u = s.accessed p u := by
  intro fuel
  induction fuel with
  | zero =>
    intro s e s2 h
    simp [clockPickLoop] at h
  | succ f ih =>
    intro s e s2 h
    simp only [clockPickLoop] at h
    cases hn : clock_next_frame s with
    | none =>
      rw [hn] at h
      exact absurd h (by simp)
    | some p =>
      obtain ⟨e1, s1⟩ := p
      obtain ⟨hs1, hget⟩ := clock_next_shape hn
      rw [hn] at h
      dsimp only at h
      subst hs1
      intro p u hpu
      by_cases hp : s.pinned e1.kpage = true
      · rw [if_pos hp] at h
        exact ih h p u hpu
      · rw [if_neg hp] at h
        by_cases ha : s.accessed pd e1.upage = true
        · rw [if_pos ha] at h
          have := ih h p u hpu
          rw [this]
          show (if p = pd ∧ u = e1.upage then false else s.accessed p u) = s.accessed p u
          rw [if_neg (by
            rintro ⟨rfl, -⟩
            exact hpu rfl)]
        · rw [if_neg ha] at h
          injection h with h1 h2
          subst h2
          rfl

/-- C1: for every frame-table state and every call of the eviction
scanner clock_pick_evict_frame, an entry whose pinned flag is true is
never returned as the victim: whatever victim the scan returns, its
pinned flag in the pre-scan state is false. -/
theorem clock_pick_never_returns_pinned (pd : Nat) (s : FrameState) (e : FTE)
    (h : victimOf (clock_pick_evict_frame pd s) = some e) :
    s.pinned e.kpage = false := by
  cases hr : clock_pick_evict_frame pd s with
  | victim e1 s2 =>
    rw [hr] at h
    simp only [victimOf] at h
    injection h with h
    subst h
    exact (clock_pick_victim_inv hr).2.2.2.2.2.2.2
  | oom =>
    rw [hr] at h
    exact Option.noConfusion h
  | emptyPanic =>
    rw [hr] at h
    exact Option.noConfusion h
  | undef =>
    rw [hr] at h
    exact Option.noConfusion h

/-- Witness for C1 at a concrete state: the scan over one unpinned
entry returns it, and its pinned flag is false. -/
theorem clock_pick_never_returns_pinned_check :
    victimOf (clock_pick_evict_frame 1 exOne) = some exEntry ∧
      exOne.pinned exEntry.kpage = false :=
  ⟨by rfl, clock_pick_never_returns_pinned 1 exOne exEntry (by rfl)⟩

/-- C2: the scan of clock_pick_evict_frame is bounded: its loop runs at
most 2n + 1 iterations, n the number of live entries (the fuel of the
model, mirroring for it = 0 .. 2n of the source).  For every state with
n at least 1 whose structures are consistent and whose cursor is valid:
if at least one entry is unpinned the scan returns a victim within the
bound, and if every entry is pinned the scan ends in the fatal
out-of-memory PANIC instead of looping forever. -/
theorem clock_pick_bound (pd : Nat) (s : FrameState)
    (hm : s.frameMap ≠ [])
    (hlen : s.frameMap.length = s.frameList.length)
    (hnd : (keysOf s.frameList).Nodup)
    (hcur : cursorOKb s = true) :
    ((∃ e ∈ s.frameList, s.pinned e.kpage = false) →
        ∃ e, victimOf (clock_pick_evict_frame pd s) = some e) ∧
      ((∀ e ∈ s.frameList, s.pinned e.kpage = true) →
        clock_pick_evict_frame pd s = PickResult.oom) := by
  have hn0 : ¬ s.frameMap.length = 0 := by
    simpa [List.length_eq_zero] using hm
  have hne : s.frameList ≠ [] := by
    intro hh
    rw [hh] at hlen
    exact hn0 (by simpa using hlen)
  constructor
  · rintro ⟨u, hu, hup⟩
    obtain ⟨j, hj⟩ := List.mem_iff_get.mp hu
    have hj2 : s.frameList.get? j.1 = some u := by
      rw [List.get?_eq_get j.2, hj]
    have hbound : distTo s j.1 + 1 +
        (if s.accessed pd u.upage = true then s.frameList.length else 0) ≤
          2 * s.frameMap.length + 1 := by
      have h1 : distTo s j.1 < s.frameList.length := cdist_lt (nextIdx_lt hne) j.2
      rw [hlen]
      split_ifs <;> omega
    obtain ⟨e, s2, hloop⟩ := clockPickLoop_finds hj2 hnd hcur hup hbound
    refine ⟨e, ?_⟩
    simp only [clock_pick_evict_frame]
    rw [if_neg hn0, hloop]
    rfl
  · intro hall
    simp only [clock_pick_evict_frame]
    rw [if_neg hn0]
    exact clockPickLoop_all_pinned hne hcur hall

/-- Witness for C2: at a state with one unpinned entry a victim is
found; at a state where the only entry is pinned the scan PANICs with
out-of-memory. -/
theorem clock_pick_bound_check :
    (∃ e, victimOf (clock_pick_evict_frame 1 exOne) = some e) ∧
      clock_pick_evict_frame 1 exOnePinned = PickResult.oom :=
  ⟨(clock_pick_bound 1 exOne (by decide) (by decide) (by decide) (by rfl)).1
      ⟨exEntry, by decide, by rfl⟩,
    (clock_pick_bound 1 exOnePinned (by decide) (by decide) (by decide) (by rfl)).2
      (by decide)⟩

/-- C8: on a non-empty eviction order with a valid cursor, each call of
clock_next_frame advances the cursor exactly one position (wrapping to
the first entry when it passes the end, as encoded by nextIdx) and
returns the live entry of the eviction order at the new cursor
position. -/
theorem clock_next_advances (s : FrameState) (hne : s.frameList ≠ [])
    (hnd : (keysOf s.frameList).Nodup) (hcur : cursorOKb s = true) :
    ∃ e s2, clock_next_frame s = some (e, s2) ∧
      s.frameList.get? (nextIdx s) = some e ∧
      e ∈ s.frameList ∧
      s2.frameList = s.frameList ∧
      s2.clockPtr = some e.kpage ∧
      nextIdx s2 = (if nextIdx s + 1 = s.frameList.length then 0 else nextIdx s + 1) := by
  obtain ⟨e, hget, heq⟩ := clock_next_some hne hcur
  exact ⟨e, _, heq, hget, List.get?_mem hget, rfl, rfl, nextIdx_after hnd hget _ rfl rfl⟩

/-- Witness for C8 at a concrete two-entry state with the cursor on the
first entry. -/
theorem clock_next_advances_check :
    ∃ e s2, clock_next_frame exTwo = some (e, s2) ∧
      exTwo.frameList.get? (nextIdx exTwo) = some e ∧
      e ∈ exTwo.frameList ∧
      s2.frameList = exTwo.frameList ∧
      s2.clockPtr = some e.kpage ∧
      nextIdx s2 = (if nextIdx exTwo + 1 = exTwo.frameList.length then 0
        else nextIdx exTwo + 1) :=
  clock_next_advances exTwo (by decide) (by decide) (by rfl)

/-- C3 counterexample: at a concrete state whose single entry is owned
by thread 1 with the accessed bit set in the owner page directory, the
source scanner invoked by a different thread (page directory 2) returns
the entry immediately and leaves the owner accessed bit set, while the
variant written from the words of the spec (clock_pick_evict_frame_ownerq,
which queries the owner page table) gives the entry a second chance and
clears that bit.  The bit the source queries and clears is therefore
the one of the page directory passed by the caller, not the owner one,
refuting the claim. -/
theorem clock_pick_owner_bit_counterexample :
    victimOf (clock_pick_evict_frame 2 exOwnerAcc) = some exEntry3 ∧
      (stateOf (clock_pick_evict_frame 2 exOwnerAcc)).map (fun st => st.accessed 1 0x2000) =
        some true ∧
      (stateOf (clock_pick_evict_frame_ownerq exOwnerAcc)).map
          (fun st => st.accessed 1 0x2000) =
        some false :=
  ⟨by decide, by decide, by decide⟩

/-- C3 amended: the accessed bit the eviction scanner queries and
clears for each inspected entry is the bit of that entry owner_page in
the single page directory passed to clock_pick_evict_frame (which
vm_frame_allocate passes as the page directory of the invoking
thread): the scan never changes an accessed bit of any other page
directory. -/
theorem clock_pick_clears_only_caller_pagedir (pd : Nat) (s : FrameState) (e : FTE)
    (s2 : FrameState) (h : clock_pick_evict_frame pd s = PickResult.victim e s2) :
    ∀ p u, p ≠ pd → s2.accessed p u = s.accessed p u := by
  simp only [clock_pick_evict_frame] at h
  split at h
  · exact PickResult.noConfusion h
  · exact clockPickLoop_accessed_other h

/-- Witness for the amended C3: applying the theorem at the concrete
counterexample state shows the owner page directory bit is untouched. -/
theorem clock_pick_clears_only_caller_pagedir_check :
    ({ exOwnerAcc with clockPtr := some 0xc0003000 } : FrameState).accessed 1 0x2000 =
      exOwnerAcc.accessed 1 0x2000 :=
  clock_pick_clears_only_caller_pagedir 2 exOwnerAcc exEntry3
    { exOwnerAcc with clockPtr := some 0xc0003000 } (by rfl) 1 0x2000 (by decide)

/-- C5 evaluation at the failing input: with one free frame in the pool
and an exhausted kernel heap, vm_frame_allocate acquires the frame,
fails the entry-record malloc, and returns the failure indication NULL
with registry and eviction order unchanged, but the acquired frame is
not released back to the pool: the pool is left empty and no pallocFree
event occurs, so the physical frame leaks, contradicting the claim that
it is released. -/
theorem allocate_malloc_failure_leaks_frame :
    (vm_frame_allocate 1 0x3000 exHeapFail).map
        (fun r => (r.1, r.2.1.pool, r.2.1.frameMap, r.2.1.frameList, r.2.2)) =
      some (none, [], [], [], [Event.pallocGet (some 0xc0005000)]) := by
  rfl

/-- C7 evaluation at the failing input: freeing the entry the cursor
points at leaves the cursor unchanged, still holding the removed key
0xc0001000, which is no longer among the keys of the eviction order:
vm_frame_do_free neither adjusts nor invalidates the cursor, so the
cursor is left pointing at a removed entry, contradicting the claim. -/
theorem do_free_leaves_stale_cursor :
    (vm_frame_free 0xc0001000 exTwo).map (fun st => (st.clockPtr, keysOf st.frameList)) =
      some (some 0xc0001000, [0xc0002000]) := by
  decide

/- Preservation of structural well-formedness by the public operations. -/

@[simp]
theorem recordSwap_frameMap (ev : FTE) (idx : Nat) (s : FrameState) :
    (recordSwap ev idx s).frameMap = s.frameMap := rfl

@[simp]
theorem recordSwap_frameList (ev : FTE) (idx : Nat) (s : FrameState) :
    (recordSwap ev idx s).frameList = s.frameList := rfl

@[simp]
theorem recordSwap_pool (ev : FTE) (idx : Nat) (s : FrameState) :
    (recordSwap ev idx s).pool = s.pool := rfl

@[simp]
theorem recordSwap_heapOK (ev : FTE) (idx : Nat) (s : FrameState) :
    (recordSwap ev idx s).heapOK = s.heapOK := rfl

theorem WF_of_eq {s t : FrameState} (hwf : WF s) (hm : t.frameMap = s.frameMap)
    (hl : t.frameList = s.frameList) (hp : t.pool = s.pool) : WF t := by
  simp only [WF, entriesConsistent, hm, hl, hp]
  exact hwf

theorem entriesConsistent_keys {s : FrameState} (h : entriesConsistent s) {k : Nat} :
    k ∈ keysOf s.frameMap ↔ k ∈ keysOf s.frameList := by
  constructor <;> intro hk
  · obtain ⟨e, he, hek⟩ := mem_keysOf.mp hk
    exact mem_keysOf.mpr ⟨e, h.1 e he, hek⟩
  · obtain ⟨e, he, hek⟩ := mem_keysOf.mp hk
    exact mem_keysOf.mpr ⟨e, h.2 e he, hek⟩

theorem WF_do_free {k : Nat} {fp : Bool} {s s2 : FrameState}
    (h : vm_frame_do_free k fp s = some s2) (hwf : WF s) : WF s2 := by
  obtain ⟨hnm, hnl, hcons, hpn, hdisj⟩ := hwf
  simp only [vm_frame_do_free] at h
  split at h
  case isFalse => exact Option.noConfusion h
  case isTrue hg =>
    cases hf : hash_find s.frameMap k with
    | none =>
      rw [hf] at h
      injection h with h
      subst h
      exact ⟨hnm, hnl, hcons, hpn, hdisj⟩
    | some f =>
      rw [hf] at h
      injection h with h
      subst h
      have hkm : k ∈ keysOf s.frameMap :=
        mem_keysOf.mpr ⟨f, (hash_find_some hf).1, (hash_find_some hf).2⟩
      have hcons2 : ∀ e, e ∈ eraseKey s.frameMap k ↔ e ∈ eraseKey s.frameList k := by
        intro e
        rw [mem_eraseKey hnm, mem_eraseKey hnl]
        constructor
        · rintro ⟨he, hek⟩
          exact ⟨hcons.1 e he, hek⟩
        · rintro ⟨he, hek⟩
          exact ⟨hcons.2 e he, hek⟩
      have hdisj2 : ∀ x ∈ s.pool, x ∉ keysOf (eraseKey s.frameMap k) := by
        intro x hx hmem
        obtain ⟨e, he, hek⟩ := mem_keysOf.mp hmem
        exact hdisj x hx (mem_keysOf.mpr ⟨e, ((mem_eraseKey hnm).mp he).1, hek⟩)
      cases fp with
      | false =>
        simp only [Bool.false_eq_true, if_false]
        exact ⟨nodup_keysOf_eraseKey hnm, nodup_keysOf_eraseKey hnl,
          ⟨fun e he => (hcons2 e).mp he, fun e he => (hcons2 e).mpr he⟩, hpn, hdisj2⟩
      | true =>
        simp only [if_true]
        refine ⟨nodup_keysOf_eraseKey hnm, nodup_keysOf_eraseKey hnl,
          ⟨fun e he => (hcons2 e).mp he, fun e he => (hcons2 e).mpr he⟩, ?_, ?_⟩
        · exact List.nodup_cons.mpr ⟨fun hk2 => hdisj k hk2 hkm, hpn⟩
        · intro x hx
          rcases List.mem_cons.mp hx with rfl | hx2
          · exact not_mem_keysOf_eraseKey hnm
          · exact hdisj2 x hx2

theorem WF_set_pinned {k : Nat} {v : Bool} {s s2 : FrameState}
    (h : vm_frame_set_pinned k v s = some s2) (hwf : WF s) : WF s2 := by
  simp only [vm_frame_set_pinned] at h
  cases hf : hash_find s.frameMap k with
  | none =>
    rw [hf] at h
    exact Option.noConfusion h
  | some f =>
    rw [hf] at h
    injection h with h
    subst h
    exact WF_of_eq hwf rfl rfl rfl

theorem WF_finishAllocate {tid up fp : Nat} {s : FrameState} {tr : List Event}
    (hwf : WF s) (hfp : fp ∉ keysOf s.frameMap) (hfpp : fp ∉ s.pool) :
    WF (finishAllocate tid up fp s tr).2.1 := by
  obtain ⟨hnm, hnl, hcons, hpn, hdisj⟩ := hwf
  have hfpl : fp ∉ keysOf s.frameList := fun hk =>
    hfp ((entriesConsistent_keys ⟨hcons.1, hcons.2⟩).mpr hk)
  unfold finishAllocate
  split
  · dsimp only
    have hfind : hash_find s.frameMap fp = none := hash_find_eq_none.mpr hfp
    have hins : hash_insert s.frameMap ⟨fp, up, tid⟩ = (⟨fp, up, tid⟩ : FTE) :: s.frameMap := by
      rw [hash_insert, hfind]
    rw [hins]
    refine ⟨?_, ?_, ⟨?_, ?_⟩, hpn, ?_⟩
    · rw [keysOf_cons]
      exact List.nodup_cons.mpr ⟨hfp, hnm⟩
    · rw [keysOf_append]
      rw [List.nodup_append]
      refine ⟨hnl, List.nodup_singleton _, ?_⟩
      intro a ha hb
      rw [show keysOf [(⟨fp, up, tid⟩ : FTE)] = [fp] from rfl] at hb
      rw [List.mem_singleton] at hb
      subst hb
      exact hfpl ha
    · intro e he
      rcases List.mem_cons.mp he with rfl | he2
      · exact List.mem_append.mpr (Or.inr (List.mem_singleton.mpr rfl))
      · exact List.mem_append.mpr (Or.inl (hcons.1 e he2))
    · intro e he
      rcases List.mem_append.mp he with he2 | he2
      · exact List.mem_cons_of_mem _ (hcons.2 e he2)
      · rw [List.mem_singleton] at he2
        subst he2
        exact List.mem_cons_self _ _
    · intro x hx
      rw [keysOf_cons]
      intro hmem
      rcases List.mem_cons.mp hmem with rfl | h2
      · exact hfpp hx
      · exact hdisj x hx h2
  · exact ⟨hnm, hnl, hcons, hpn, hdisj⟩

theorem WF_evictOne {tid : Nat} {s : FrameState} {ev : FTE} {idx : Nat} {s3 : FrameState}
    (h : evictOne tid s = some (ev, idx, s3)) (hwf : WF s) : WF s3 := by
  simp only [evictOne] at h
  cases hpick : clock_pick_evict_frame tid s with
  | victim ev1 s1 =>
    rw [hpick] at h
    dsimp only at h
    obtain ⟨hm1, hl1, hp1, hpin1, hsw1, hsu1, hh1, hpv⟩ := clock_pick_victim_inv hpick
    have hwf1 : WF (recordSwap ev1 s1.swapCtr s1) :=
      WF_of_eq hwf (by rw [recordSwap_frameMap, hm1]) (by rw [recordSwap_frameList, hl1])
        (by rw [recordSwap_pool, hp1])
    cases hdf : vm_frame_do_free ev1.kpage true (recordSwap ev1 s1.swapCtr s1) with
    | none =>
      rw [hdf] at h
      exact Option.noConfusion h
    | some s3x =>
      rw [hdf] at h
      injection h with h
      injection h with h1 h2
      injection h2 with h2 h3
      subst h3
      exact WF_do_free hdf hwf1
  | oom =>
    rw [hpick] at h
    exact Option.noConfusion h
  | emptyPanic =>
    rw [hpick] at h
    exact Option.noConfusion h
  | undef =>
    rw [hpick] at h
    exact Option.noConfusion h

theorem WF_allocate {tid up : Nat} {s : FrameState}
    {r : Option Nat × FrameState × List Event}
    (h : vm_frame_allocate tid up s = some r) (hwf : WF s) : WF r.2.1 := by
  obtain ⟨hnm, hnl, hcons, hpn, hdisj⟩ := hwf
  cases hp : s.pool with
  | cons fp rest =>
    simp only [vm_frame_allocate, hp] at h
    injection h with h
    subst h
    have hfp : fp ∉ keysOf s.frameMap := hdisj fp (by rw [hp]; exact List.mem_cons_self _ _)
    have hrest : rest.Nodup ∧ fp ∉ rest := by
      rw [hp] at hpn
      exact ⟨(List.nodup_cons.mp hpn).2, (List.nodup_cons.mp hpn).1⟩
    refine WF_finishAllocate ?_ hfp ?_
    · refine ⟨hnm, hnl, hcons, hrest.1, ?_⟩
      intro x hx
      exact hdisj x (by rw [hp]; exact List.mem_cons_of_mem _ hx)
    · exact hrest.2
  | nil =>
    simp only [vm_frame_allocate, hp] at h
    cases he : evictOne tid s with
    | none =>
      rw [he] at h
      exact Option.noConfusion h
    | some t =>
      obtain ⟨ev, idx, s3⟩ := t
      rw [he] at h
      dsimp only at h
      have hwf3 : WF s3 := WF_evictOne he ⟨hnm, hnl, hcons, hpn, hdisj⟩
      cases hp3 : s3.pool with
      | nil =>
        rw [hp3] at h
        exact Option.noConfusion h
      | cons fp3 rest3 =>
        rw [hp3] at h
        injection h with h
        subst h
        obtain ⟨hnm3, hnl3, hcons3, hpn3, hdisj3⟩ := hwf3
        have hfp3 : fp3 ∉ keysOf s3.frameMap :=
          hdisj3 fp3 (by rw [hp3]; exact List.mem_cons_self _ _)
        have hrest3 : rest3.Nodup ∧ fp3 ∉ rest3 := by
          rw [hp3] at hpn3
          exact ⟨(List.nodup_cons.mp hpn3).2, (List.nodup_cons.mp hpn3).1⟩
        refine WF_finishAllocate ?_ hfp3 hrest3.2
        refine ⟨hnm3, hnl3, hcons3, hrest3.1, ?_⟩
        intro x hx
        exact hdisj3 x (by rw [hp3]; exact List.mem_cons_of_mem _ hx)

/-- C6: initialization establishes consistent (empty) structures, and
after every completed public operation (allocate, free, free-entry-only
via removeEntry, pin, unpin) on a well-formed state, the set of entries
stored in the Frame Registry equals the set of entries in the Eviction
Order: no entry is present in one structure and absent from the
other. -/
theorem public_ops_keep_registry_order_consistent :
    (∀ s, entriesConsistent (vm_frame_init s)) ∧
      (∀ op s s2, WF s → applyOp op s = some s2 → entriesConsistent s2) := by
  constructor
  · intro s
    exact ⟨fun e he => absurd he (List.not_mem_nil e),
      fun e he => absurd he (List.not_mem_nil e)⟩
  · intro op s s2 hwf h
    have hwf2 : WF s2 := by
      cases op with
      | allocate tid up =>
        simp only [applyOp] at h
        obtain ⟨r, hr, hr2⟩ := Option.map_eq_some'.mp h
        exact hr2 ▸ WF_allocate hr hwf
      | free k => exact WF_do_free h hwf
      | removeEntry k => exact WF_do_free h hwf
      | pin k => exact WF_set_pinned h hwf
      | unpin k => exact WF_set_pinned h hwf
    exact hwf2.2.2.1

/-- Witness for C6: initialization of a concrete state is consistent,
and a completed free operation on a well-formed concrete state leaves
the structures consistent. -/
theorem public_ops_keep_registry_order_consistent_check :
    entriesConsistent (vm_frame_init exBase) ∧ entriesConsistent exOne :=
  ⟨public_ops_keep_registry_order_consistent.1 exBase,
    public_ops_keep_registry_order_consistent.2 (Op.free 0xc0009000) exOne exOne
      (by decide) (by rfl)⟩

/-- C9: freeing a frame_id that has no entry in the registry, with
either vm_frame_free or vm_frame_remove_entry, is a silent no-op that
returns the state completely unchanged (registry, eviction order,
cursor and pool), under the page-aligned kernel-address precondition
(C10) and unique registry keys; consequently freeing the same frame_id
twice is safe, the second call changing nothing. -/
theorem free_absent_is_noop (k : Nat) (s : FrameState)
    (hk : is_kernel_vaddr k = true) (ha : pg_ofs k = 0)
    (hnd : (keysOf s.frameMap).Nodup) :
    (k ∉ keysOf s.frameMap →
        vm_frame_free k s = some s ∧ vm_frame_remove_entry k s = some s) ∧
      (∀ s2, vm_frame_free k s = some s2 → vm_frame_free k s2 = some s2) := by
  have hg : (is_kernel_vaddr k && (pg_ofs k == 0)) = true := by
    rw [hk, ha]
    rfl
  constructor
  · intro habs
    have hf : hash_find s.frameMap k = none := hash_find_eq_none.mpr habs
    constructor
    · simp [vm_frame_free, vm_frame_do_free, hg, hf]
    · simp [vm_frame_remove_entry, vm_frame_do_free, hg, hf]
  · intro s2 h2
    by_cases hmem : k ∈ keysOf s.frameMap
    · obtain ⟨f, hf⟩ := hash_find_of_mem hmem
      simp [vm_frame_free, vm_frame_do_free, hg, hf] at h2
      subst h2
      have habs2 : k ∉ keysOf (eraseKey s.frameMap k) := not_mem_keysOf_eraseKey hnd
      have hf2 : hash_find (eraseKey s.frameMap k) k = none := hash_find_eq_none.mpr habs2
      simp [vm_frame_free, vm_frame_do_free, hg, hf2]
    · have hf : hash_find s.frameMap k = none := hash_find_eq_none.mpr hmem
      simp [vm_frame_free, vm_frame_do_free, hg, hf] at h2
      subst h2
      simp [vm_frame_free, vm_frame_do_free, hg, hf]

/-- Witness for C9 at a concrete state: freeing an absent frame_id is a
no-op for both public free operations. -/
theorem free_absent_is_noop_check :
    vm_frame_free 0xc0009000 exOne = some exOne ∧
      vm_frame_remove_entry 0xc0009000 exOne = some exOne :=
  (free_absent_is_noop 0xc0009000 exOne (by decide) (by decide) (by decide)).1 (by decide)

/-- C10: the public free operations carry the unstated precondition
that the supplied frame_id is a page-aligned kernel virtual address:
for every state, calling vm_frame_free or vm_frame_remove_entry with an
address that is not a kernel virtual address or not page-aligned fails
an assertion (the fatal none) instead of the benign absent-frame
no-op. -/
theorem free_asserts_kernel_aligned (k : Nat) (s : FrameState)
    (h : ¬ (is_kernel_vaddr k = true ∧ pg_ofs k = 0)) :
    vm_frame_free k s = none ∧ vm_frame_remove_entry k s = none := by
  have hg : (is_kernel_vaddr k && (pg_ofs k == 0)) = false := by
    cases hk : is_kernel_vaddr k
    · rfl
    · have hz : ¬ pg_ofs k = 0 := fun hz => h ⟨hk, hz⟩
      simp [hz]
  constructor
  · simp [vm_frame_free, vm_frame_do_free, hg]
  · simp [vm_frame_remove_entry, vm_frame_do_free, hg]

/-- Witness for C10: calling free with the user-space address 0x1000
fails the assertion. -/
theorem free_asserts_kernel_aligned_check :
    vm_frame_free 0x1000 exBase = none ∧ vm_frame_remove_entry 0x1000 exBase = none :=
  free_asserts_kernel_aligned 0x1000 exBase (by decide)

/-- C4: whenever direct frame acquisition fails (empty pool) and the
scan returns a victim with an aligned kernel kpage present in the
registry, vm_frame_allocate performs exactly these collaborator
operations in this order: the failed palloc, clearing the victim
owner_page mapping in the victim owner page table, writing the victim
frame to the backing store obtaining the next slot, recording that slot
for the victim owner and owner_page in the supplemental page table,
removing the victim entry and returning its frame to the pool, and then
the successful re-acquisition of that same frame, which is handed
out. -/
theorem allocate_eviction_sequence (tid up : Nat) (s : FrameState) (ev : FTE)
    (s1 : FrameState)
    (hpool : s.pool = [])
    (hpick : clock_pick_evict_frame tid s = PickResult.victim ev s1)
    (hheap : s.heapOK = true)
    (hkv : is_kernel_vaddr ev.kpage = true) (hka : pg_ofs ev.kpage = 0)
    (hmem : ev.kpage ∈ keysOf s.frameMap) :
    (vm_frame_allocate tid up s).map (fun r => (r.1, r.2.2)) =
      some (some ev.kpage,
        [Event.pallocGet none, Event.clearPage ev.owner ev.upage,
         Event.swapOut ev.kpage s.swapCtr, Event.setSwap ev.owner ev.upage s.swapCtr,
         Event.removeFTE ev.kpage, Event.pallocFree ev.kpage,
         Event.pallocGet (some ev.kpage)]) := by
  obtain ⟨hm1, hl1, hp1, hpin1, hsw1, hsu1, hh1, hpv⟩ := clock_pick_victim_inv hpick
  have hg : (is_kernel_vaddr ev.kpage && (pg_ofs ev.kpage == 0)) = true := by
    rw [hkv, hka]
    rfl
  obtain ⟨f, hf⟩ := hash_find_of_mem
    (show ev.kpage ∈ keysOf (recordSwap ev s1.swapCtr s1).frameMap by
      rw [recordSwap_frameMap, hm1]
      exact hmem)
  simp only [vm_frame_allocate, hpool, evictOne, hpick]
  simp only [vm_frame_do_free, hg, hf, if_true]
  simp only [recordSwap_pool, hp1, hpool]
  simp only [finishAllocate, recordSwap_heapOK, hh1, hheap, if_true, hsw1]
  rfl

/-- Witness for C4 at a concrete state with one evictable entry and an
empty pool: the trace of collaborator calls is exactly the required
sequence. -/
theorem allocate_eviction_sequence_check :
    (vm_frame_allocate 2 0x4000 exOne).map (fun r => (r.1, r.2.2)) =
      some (some exEntry.kpage,
        [Event.pallocGet none, Event.clearPage exEntry.owner exEntry.upage,
         Event.swapOut exEntry.kpage exOne.swapCtr,
         Event.setSwap exEntry.owner exEntry.upage exOne.swapCtr,
         Event.removeFTE exEntry.kpage, Event.pallocFree exEntry.kpage,
         Event.pallocGet (some exEntry.kpage)]) :=
  allocate_eviction_sequence 2 0x4000 exOne exEntry
    { exOne with clockPtr := some exEntry.kpage }
    (by rfl) (by rfl) (by rfl) (by decide) (by decide) (by decide)

end FrameTable
